import Mathlib

/-!
Verification development for the render_jupyter repository.

The repository has two core source files:
* `src/spider.py` — a browser-driven link-discovery engine (`UnsplashScraper`,
  `RateLimiter`, `AntiSpiderHelper`);
* `src/download.py` — a concurrent download manager (`FastImageDownloadManager`).

This file gives a shallow embedding of the data model and the operations of
those two files, faithful to the Python source, and proves the behavioural
properties stated in the specification.  Real time is modelled by `ℚ`
(Python floats are idealised as exact rationals), file systems by lists of
paths, and external collaborators (HTTP servers, `hashlib.md5`) by explicit
function parameters constrained by hypotheses.
-/

namespace Spider

/-- Exit reason of the scroll loop in `UnsplashScraper.run_load_more_flow`
(src/spider.py lines 519-547): either three consecutive scrolls without height
growth, or the cumulative link count reached the save threshold, or the
scroll-attempt count reached `MAX_SCROLL_ATTEMPTS`. -/
inductive ExitReason
  | noMoreContent
  | thresholdReached
  | maxAttempts
deriving DecidableEq

/-- The main scroll loop of `run_load_more_flow`.  `grew k` is the result of
the `k`-th call (1-based) to `scroll_page` — `True` iff the page height
increased (src/spider.py lines 441-446); `cnt k` is the cumulative distinct
link count returned by `extract_download_links` after the `k`-th scroll.
`fuel` is the number of loop iterations still allowed by the
`scroll_count < MAX_SCROLL_ATTEMPTS` guard, `sc` the current `scroll_count`
and `nl` the current `no_load_count`.  Side effects (delays, DOM cleanup,
the flush performed on the threshold branch) are dropped; the control flow
is kept exactly. -/
def runLoop (grew : ℕ → Bool) (cnt : ℕ → ℕ) (threshold : ℕ) :
    ℕ → ℕ → ℕ → ExitReason × ℕ
  | 0, sc, _ => (ExitReason.maxAttempts, sc)
  | fuel + 1, sc, nl =>
    let sc' := sc + 1
    let nl' := if grew sc' then 0 else nl + 1
    if 3 ≤ nl' then (ExitReason.noMoreContent, sc')
    else if threshold ≤ cnt sc' then (ExitReason.thresholdReached, sc')
    else runLoop grew cnt threshold fuel sc' nl'

/-- Instrumented variant of `runLoop` that also records the
`(scroll_count, no_load_count)` state after every iteration. -/
def runLoopTrace (grew : ℕ → Bool) (cnt : ℕ → ℕ) (threshold : ℕ) :
    ℕ → ℕ → ℕ → ExitReason × List (ℕ × ℕ)
  | 0, _, _ => (ExitReason.maxAttempts, [])
  | fuel + 1, sc, nl =>
    let sc' := sc + 1
    let nl' := if grew sc' then 0 else nl + 1
    if 3 ≤ nl' then (ExitReason.noMoreContent, [(sc', nl')])
    else if threshold ≤ cnt sc' then (ExitReason.thresholdReached, [(sc', nl')])
    else
      let r := runLoopTrace grew cnt threshold fuel sc' nl'
      (r.1, (sc', nl') :: r.2)

/-- The simulated page-height sequence `100, 200, 200, 200, 350` of the
specification: `testHeights k` is the page height after the `k`-th scroll
(`testHeights 0` is the initial height), constant once the sequence is
exhausted. -/
def testHeights : ℕ → ℕ
  | 0 => 100
  | 1 => 200
  | 2 => 200
  | 3 => 200
  | _ => 350

/-- `scroll_page` result for the simulated heights: call `k` measures
`before = testHeights (k-1)`, scrolls, measures `after = testHeights k`,
and returns `after > before`. -/
def testGrew (k : ℕ) : Bool := decide (testHeights (k - 1) < testHeights k)

/-- In-memory state of the link store: the deduplicated set of discovered
links (`self.download_links`), the running total (`self.total_saved_links`)
and the write events performed so far (file name, lines written). -/
structure ScraperState where
  downloadLinks : List String
  totalSavedLinks : ℕ
  savedFiles : List (String × List String)
deriving DecidableEq

/-- File name used by `save_links_to_file`
(src/spider.py line 495): `./url/{keyword}_{total}.txt`. -/
def outputFileName (keyword : String) (total : ℕ) : String :=
  "./url/" ++ keyword ++ "_" ++ toString total ++ ".txt"

/-- `UnsplashScraper.save_links_to_file` (src/spider.py lines 486-503):
adds the batch size to the running total first, then appends the current
set's members, one per line, to the file named by the keyword and the new
total.  Note: this method does not clear `download_links`. -/
def saveLinksToFile (keyword : String) (s : ScraperState) : ScraperState :=
  ⟨s.downloadLinks,
   s.totalSavedLinks + s.downloadLinks.length,
   s.savedFiles ++
     [(outputFileName keyword (s.totalSavedLinks + s.downloadLinks.length),
       s.downloadLinks)]⟩

/-- The threshold-triggered flush site (src/spider.py lines 545-546):
`self.save_links_to_file()` followed by `self.download_links.clear()`. -/
def thresholdFlush (keyword : String) (s : ScraperState) : ScraperState :=
  let s1 := saveLinksToFile keyword s
  ⟨[], s1.totalSavedLinks, s1.savedFiles⟩

/-- The session-end flush site in `UnsplashScraper.start`
(src/spider.py lines 573-576): `if self.download_links:
self.save_links_to_file()` — the save is skipped when the set is empty, and
the set is not cleared afterwards. -/
def sessionEndFlush (keyword : String) (s : ScraperState) : ScraperState :=
  if s.downloadLinks = [] then s else saveLinksToFile keyword s

end Spider

namespace Download

/-- Base retry wait of `download_with_retry` (src/download.py line 261):
`2 ** min(attempt, 5)` seconds, `attempt` 0-based. -/
def baseWait (attempt : ℕ) : ℚ := 2 ^ min attempt 5

/-- Full retry wait: base wait plus the `random.uniform(0, 1)` jitter,
taken as an explicit parameter. -/
def retryWait (attempt : ℕ) (jitter : ℚ) : ℚ := baseWait attempt + jitter

/-- Python whitespace characters stripped by `str.strip()`
(space, tab, newline, vertical tab, form feed, carriage return). -/
def isPySpace (c : Char) : Bool :=
  c = ' ' || c = '\t' || c = '\n' || c = '\r' || c = Char.ofNat 11 || c = Char.ofNat 12

/-- Python `str.strip()` (no argument): remove leading and trailing
whitespace. -/
def pyStrip (s : String) : String :=
  String.mk (((s.toList.dropWhile isPySpace).reverse.dropWhile isPySpace).reverse)

/-- `os.path.join(a, b)` for the POSIX shapes used by the code. -/
def pyJoin (a b : String) : String :=
  if b.startsWith "/" then b
  else if a.endsWith "/" then a ++ b
  else a ++ "/" ++ b

/-- Split a character list on a separator character (the `str.split(sep)` /
`str.splitOn` behaviour for a one-character separator). -/
def splitOnChar (c : Char) : List Char → List (List Char)
  | [] => [[]]
  | x :: xs =>
    let r := splitOnChar c xs
    if x = c then [] :: r
    else
      match r with
      | [] => [[x]]
      | y :: ys => (x :: y) :: ys

/-- Nonempty `/`-separated segments of a path. -/
def pathSegments (p : String) : List String :=
  ((splitOnChar '/' p.toList).map String.mk).filter (fun seg => seg ≠ "")

/-- `pathlib.Path(p).name`: the last path component (trailing slashes are
dropped by `Path`'s normalisation; `.` / `..` components are not modelled). -/
def pathName (p : String) : String := (pathSegments p).getLastD ""

/-- Shared mutable state of `FastImageDownloadManager` visible to a task:
the URL→path mapping `self.url_mapping` and the set of files existing on
disk (`os.path.exists`, `shutil.copy2` and completed downloads). -/
structure DMState where
  mapping : List (String × String)
  files : List String
deriving DecidableEq

/-- Observable outcome of `_process_single_url` (which printed message the
task ends with). -/
inductive TaskOutcome
  | skippedEmpty
  | copied
  | downloaded
  | failed
deriving DecidableEq

/-- `self.url_mapping[url] = local_path`: insert or overwrite. -/
def updateMapping (m : List (String × String)) (u v : String) :
    List (String × String) :=
  if (m.lookup u).isSome then m.map (fun p => if p.1 = u then (u, v) else p)
  else m ++ [(u, v)]

/-- The download branch of `_process_single_url`
(src/download.py lines 295-302): call `download_with_retry` — abstracted to
the oracle `dl`, which returns the final local path on success — and record
the mapping on success.  The returned `Bool` is `true` iff the network
download path was invoked. -/
def runDownload (dl : String → String → Option String) (s : DMState)
    (u dir : String) : DMState × TaskOutcome × Bool :=
  match dl u dir with
  | some p => (⟨updateMapping s.mapping u p, s.files ++ [p]⟩,
               TaskOutcome.downloaded, true)
  | none => (s, TaskOutcome.failed, true)

/-- `FastImageDownloadManager._process_single_url`
(src/download.py lines 276-302): skip blank URLs; copy from the mapping
cache when the mapped file still exists (skipping the copy when the target
is already present); otherwise fall through to the download branch. -/
def processSingleUrl (dl : String → String → Option String) (s : DMState)
    (url dir : String) : DMState × TaskOutcome × Bool :=
  if pyStrip url = "" then (s, TaskOutcome.skippedEmpty, false)
  else
    let u := pyStrip url
    match s.mapping.lookup u with
    | some src =>
      if src ∈ s.files then
        let target := pyJoin dir (pathName src)
        (⟨s.mapping, if target ∈ s.files then s.files else s.files ++ [target]⟩,
         TaskOutcome.copied, false)
      else runDownload dl s u dir
    | none => runDownload dl s u dir

/-- State of a whole `process_all` run: the per-task state plus the
persisted mapping document (`self.mapping_file`) and the number of times
`_save_mapping` has been executed. -/
structure ManagerState where
  dm : DMState
  persisted : Option (List (String × String))
  saveCount : ℕ
deriving DecidableEq

/-- `FastImageDownloadManager.process_all` (src/download.py lines 304-346):
return immediately when the URL folder does not exist; otherwise process
every collected `(url, keyword_dir)` task (worker-pool execution is
sequentialised; `future.result()` exceptions are caught per task, which the
total function `processSingleUrl` reflects), then run `_save_mapping` once —
a whole-document overwrite of the mapping file
(src/download.py lines 147-149). -/
def processAll (dl : String → String → Option String) (folderExists : Bool)
    (tasks : List (String × String)) (s : ManagerState) : ManagerState :=
  if folderExists then
    let dm' := tasks.foldl (fun st t => (processSingleUrl dl st t.1 t.2).1) s.dm
    ⟨dm', some dm'.mapping, s.saveCount + 1⟩
  else s

/-- Network outcome of the GET request of one attempt of
`download_with_retry` (src/download.py lines 238-252): the request fails
outright (timeout, connection error, `raise_for_status`), or the streamed
body is interrupted after at most `m` bytes were appended, or the full body
is received. -/
inductive NetOutcome
  | noResp
  | cutAfter (m : ℕ)
  | complete
deriving DecidableEq

/-- Whether an attempt's GET completed without a `RequestException`. -/
def isComplete : NetOutcome → Bool
  | NetOutcome.complete => true
  | _ => false

/-- Observable result of `download_with_retry`: the returned value (`some`
final file size on success, `none` on failure), the state of the temp file
afterwards (`some size` iff it exists), and the `Range` headers of the GET
requests issued, in order (`none` = no `Range` header sent). -/
structure DwrOut where
  result : Option ℕ
  temp : Option ℕ
  ranges : List (Option ℕ)
deriving DecidableEq

/-- The retry loop of `download_with_retry` (src/download.py lines
195-274) at attempt index `k` with `f` further attempts allowed after this
one (`f = 0` on the last attempt, `attempt == max_retries - 1`).  `hd k` is
whether the HEAD metadata probe of attempt `k` succeeds (only issued while
`temp_path is None`, modelled by `pathKnown = false`); `srv r` is the
number of body bytes the server sends for `Range` header `r`; `net k` is
the network outcome of the GET of attempt `k`.  `temp` is the temp file
(`some size` iff it exists; the `Range` header `bytes={size}-` is sent
exactly when it exists).  Received bytes are appended (`open(temp_path,
'ab')`), on full success the temp file is renamed onto the final path and
its size returned, and on the final failure the temp file is removed if
`temp_path` is set and the file exists.  `RequestException`s are the only
failures modelled, so the function is total — no exception escapes. -/
def dwrAux (hd : ℕ → Bool) (srv : Option ℕ → ℕ) (net : ℕ → NetOutcome) :
    ℕ → ℕ → Bool → Option ℕ → DwrOut
  | 0, _, _, temp => ⟨none, temp, []⟩
  | f + 1, k, pathKnown, temp =>
    if pathKnown || hd k then
      let range := temp
      let s := temp.getD 0
      match net k with
      | NetOutcome.complete => ⟨some (s + srv range), none, [range]⟩
      | NetOutcome.noResp =>
        if f = 0 then ⟨none, none, [range]⟩
        else
          let r := dwrAux hd srv net f (k + 1) true temp
          ⟨r.result, r.temp, range :: r.ranges⟩
      | NetOutcome.cutAfter m =>
        if f = 0 then ⟨none, none, [range]⟩
        else
          let r := dwrAux hd srv net f (k + 1) true (some (s + min m (srv range)))
          ⟨r.result, r.temp, range :: r.ranges⟩
    else
      if f = 0 then ⟨none, temp, []⟩
      else dwrAux hd srv net f (k + 1) false temp

/-- `download_with_retry(url, keyword_dir, max_retries)` (default
`max_retries = 10`): run the attempt loop from attempt 0 with no temp path
known yet.  `initTemp` is a temp file possibly left on disk by an earlier
interrupted run. -/
def dwr (hd : ℕ → Bool) (srv : Option ℕ → ℕ) (net : ℕ → NetOutcome)
    (maxRetries : ℕ) (initTemp : Option ℕ) : DwrOut :=
  dwrAux hd srv net maxRetries 0 false initTemp

/-- The apostrophe character (code 39). -/
def apos : Char := Char.ofNat 39

/-- The two quote characters removed by `.strip('"\'')`. -/
def isQuoteChar (c : Char) : Bool := c = '"' || c = apos

/-- Python `str.strip('"\'')`: remove leading and trailing quote
characters. -/
def stripQuotes (s : String) : String :=
  String.mk (((s.toList.dropWhile isQuoteChar).reverse.dropWhile
    isQuoteChar).reverse)

/-- ASCII hexadecimal digit. -/
def isHexDigitChar (c : Char) : Bool :=
  c.isDigit || (decide ('a' ≤ c) && decide (c ≤ 'f')) ||
    (decide ('A' ≤ c) && decide (c ≤ 'F'))

/-- Numeric value of a hexadecimal digit. -/
def hexVal (c : Char) : ℕ :=
  if c.isDigit then c.toNat - 48
  else if decide ('a' ≤ c) && decide (c ≤ 'f') then c.toNat - 87
  else c.toNat - 55

/-- `urllib.parse.unquote`: decode `%XX` escapes (bytes are mapped to code
points one-for-one; multi-byte UTF-8 recombination is not modelled — the
URLs and headers handled here are ASCII). -/
def unquotePct : List Char → List Char
  | [] => []
  | '%' :: a :: b :: rest =>
    if isHexDigitChar a && isHexDigitChar b then
      Char.ofNat (16 * hexVal a + hexVal b) :: unquotePct rest
    else '%' :: unquotePct (a :: b :: rest)
  | c :: rest => c :: unquotePct rest

/-- `urllib.parse.unquote` on a string. -/
def pyUnquote (s : String) : String := String.mk (unquotePct s.toList)

/-- The remainder of `l` after the leftmost occurrence of `pat`
(`re.search` locates the leftmost match). -/
def afterFirst (pat : List Char) : List Char → Option (List Char)
  | [] => if pat.isPrefixOf ([] : List Char) then some [] else none
  | c :: rest =>
    if pat.isPrefixOf (c :: rest) then some ((c :: rest).drop pat.length)
    else afterFirst pat rest

/-- The lazy group `(.+?)(?:;|$)`: the shortest nonempty prefix that is
followed by `;` or by the end of the input — i.e. everything up to the
first `;` at position ≥ 1, or the whole input when there is none. -/
def lazyCapture : List Char → Option (List Char)
  | [] => none
  | c :: rest => some (c :: rest.takeWhile (fun x => x != ';'))

/-- Scan for the earliest closing quote `q` that is followed by `;` or by
the end of the input; return the characters before it. -/
def qcAux (q : Char) : List Char → Option (List Char)
  | [] => none
  | c :: rest =>
    if c = q ∧ (rest = [] ∨ rest.head? = some ';') then some []
    else (qcAux q rest).map (fun cap => c :: cap)

/-- The lazy group `(.+?)` of `filename=(["\']?)(.+?)\1(?:;|$)` when the
opening quote `q` matched: at least one captured character, then the
earliest closing `q` followed by `;` or the end. -/
def quotedCapture (q : Char) : List Char → Option (List Char)
  | [] => none
  | c :: rest => (qcAux q rest).map (fun cap => c :: cap)

/-- The literal `filename*=`. -/
def fnStarPat : List Char := "filename*=".toList

/-- The literal `UTF-8` followed by two apostrophes. -/
def utf8Marker : List Char := "UTF-8".toList ++ [apos, apos]

/-- `re.search(r"filename\*=(?:UTF-8'')?(.+?)(?:;|$)", cd)`, modelled at
the leftmost `filename*=` occurrence (later occurrences — relevant only to
degenerate headers — are not retried). -/
def matchFilenameStar (cd : List Char) : Option (List Char) :=
  match afterFirst fnStarPat cd with
  | none => none
  | some rest =>
    let rest1 := if utf8Marker.isPrefixOf rest then rest.drop utf8Marker.length
                 else rest
    match lazyCapture rest1 with
    | some cap => some cap
    | none => lazyCapture rest

/-- The literal `filename=`. -/
def fnPat : List Char := "filename=".toList

/-- `re.search(r'filename=(["\']?)(.+?)\1(?:;|$)', cd)`, modelled at the
leftmost `filename=` occurrence: a greedy optional opening quote, the lazy
capture, the matching closing quote (backtracking to the unquoted reading
when no closing quote is found), then `;` or the end. -/
def matchFilenameBasic (cd : List Char) : Option (List Char) :=
  match afterFirst fnPat cd with
  | none => none
  | some [] => none
  | some (c :: rest) =>
    if isQuoteChar c then
      match quotedCapture c rest with
      | some cap => some cap
      | none => lazyCapture (c :: rest)
    else lazyCapture (c :: rest)

/-- First branch of `_extract_filename_from_response`
(src/download.py lines 158-163): the percent-decoded extended
`filename*=` directive, stripped of quotes. -/
def cdStarName (cd : String) : Option String :=
  match matchFilenameStar cd.toList with
  | none => none
  | some cap =>
    let fn := pyUnquote (String.mk cap)
    if fn = "" then none else some (stripQuotes fn)

/-- Second branch of `_extract_filename_from_response`
(src/download.py lines 165-170): the basic `filename=` directive, stripped
of quotes (note: not percent-decoded). -/
def cdBasicName (cd : String) : Option String :=
  match matchFilenameBasic cd.toList with
  | none => none
  | some cap =>
    if String.mk cap = "" then none else some (stripQuotes (String.mk cap))

/-- `urllib.parse.urlparse(url).path`: the path component — after the
`scheme://netloc` part when present, cut at the first `?` or `#`
(path-parameter splitting on `;` is not modelled). -/
def urlPath (url : String) : String :=
  let l := url.toList
  let pathPart :=
    match afterFirst "://".toList l with
    | some rest => rest.dropWhile (fun c => c != '/')
    | none => l
  String.mk (pathPart.takeWhile (fun c => c != '?' && c != '#'))

/-- The content-type → extension table of
`_extract_filename_from_response` (src/download.py lines 180-188), with
the `.tmp` fallback for unrecognised types. -/
def extForContentType (ct : String) : String :=
  if ct = "image/jpeg" then ".jpg"
  else if ct = "image/png" then ".png"
  else if ct = "image/gif" then ".gif"
  else if ct = "image/webp" then ".webp"
  else if ct = "image/svg+xml" then ".svg"
  else if ct = "application/octet-stream" then ".bin"
  else ".tmp"

/-- The two response headers read by `_extract_filename_from_response`;
`requests` header lookup is case-insensitive and defaults to `''`, so they
are modelled as plain fields with `""` meaning "absent". -/
structure RespHeaders where
  contentDisposition : String
  contentType : String
deriving DecidableEq

/-- `FastImageDownloadManager._extract_filename_from_response`
(src/download.py lines 151-190).  `md5hex8` models
`hashlib.md5(url.encode()).hexdigest()[:8]` — an external primitive, taken
as a parameter. -/
def extractFilenameFromResponse (md5hex8 : String → String)
    (h : RespHeaders) (url : String) : String :=
  let cdName : Option String :=
    if h.contentDisposition = "" then none
    else
      match cdStarName h.contentDisposition with
      | some fn => some fn
      | none => cdBasicName h.contentDisposition
  match cdName with
  | some fn => fn
  | none =>
    let fname := pathName (urlPath url)
    if fname ≠ "" ∧ '.' ∈ fname.toList then pyUnquote fname
    else
      let ct := String.mk (h.contentType.toList.takeWhile (fun c => c != ';'))
      md5hex8 url ++ extForContentType ct

end Download

namespace RateLimiter

/-- The fixed `+ 0.1` second safety margin added to the computed sleep time
(src/spider.py line 96). -/
def margin : ℚ := 1 / 10

/-- One call of `RateLimiter.acquire` (src/spider.py lines 86-101) on the
deque `times` of recorded admission timestamps, called at time `now`:
first pop every timestamp older than `now - time_window` from the front;
if the remaining count has reached `max_requests`, sleep for
`time_window - (now - oldest) + 0.1` (when positive) before recording;
finally record the admission timestamp.  Returns the new deque and the
admission (return) time.  The `time.time()` read after the sleep is
idealised as exactly `now + sleepTime`.  (For `max_requests = 0` the Python
code raises `IndexError` on the empty deque; `headI` defaults to `0`
there — the theorems assume `1 ≤ max_requests`.) -/
def acquireStep (maxR : ℕ) (tw : ℚ) (times : List ℚ) (now : ℚ) :
    List ℚ × ℚ :=
  let pruned := times.dropWhile (fun t => decide (t < now - tw))
  if maxR ≤ pruned.length then
    let sleepTime := tw - (now - pruned.headI) + margin
    let grant := if 0 < sleepTime then now + sleepTime else now
    (pruned ++ [grant], grant)
  else (pruned ++ [now], now)

/-- Run a sequence of `acquire` calls at the given call times, starting
from deque `D`; returns the final deque and the admission times in call
order. -/
def runAux (maxR : ℕ) (tw : ℚ) : List ℚ → List ℚ → List ℚ × List ℚ
  | D, [] => (D, [])
  | D, now :: rest =>
    let s := acquireStep maxR tw D now
    let r := runAux maxR tw s.1 rest
    (r.1, s.2 :: r.2)

/-- The admission (completion) times of a sequence of `acquire` calls
starting from a fresh limiter. -/
def admissions (maxR : ℕ) (tw : ℚ) (nows : List ℚ) : List ℚ :=
  (runAux maxR tw [] nows).2

/-- Sequential-call validity: each call is issued no earlier than the
moment the previous call returned (`lb`, its admission time — the callers
in `UnsplashScraper` await each `acquire` before issuing the next). -/
def validFrom (maxR : ℕ) (tw : ℚ) : List ℚ → ℚ → List ℚ → Bool
  | _, _, [] => true
  | D, lb, now :: rest =>
    decide (lb ≤ now) &&
      validFrom maxR tw (acquireStep maxR tw D now).1
        (acquireStep maxR tw D now).2 rest

/-- Index-wise monotonicity (sortedness) of a timestamp list. -/
def MonoList (A : List ℚ) : Prop :=
  ∀ i j : ℕ, i ≤ j → j < A.length → A.getD i 0 ≤ A.getD j 0

/-- Any `maxR + 1` admissions that are `maxR` indices apart span strictly
more than the time window. -/
def GapOK (maxR : ℕ) (tw : ℚ) (A : List ℚ) : Prop :=
  ∀ i : ℕ, i + maxR < A.length → A.getD i 0 + tw < A.getD (i + maxR) 0

/-- Inductive invariant of the limiter run: `A` is the full admission
history, `D` the current deque and `lb` the latest admission time. -/
structure Inv (maxR : ℕ) (tw : ℚ) (A D : List ℚ) (lb : ℚ) : Prop where
  mono : MonoList A
  parts : ∃ P, A = P ++ D ∧ ∀ p ∈ P, p + tw < lb
  ub : ∀ a ∈ A, a ≤ lb
  dlen : D.length ≤ maxR + 1
  dfull : D.length = maxR + 1 → D.headI + tw < lb
  gap : GapOK maxR tw A

end RateLimiter

namespace Spider

/-- C2: in the discovery main loop the consecutive no-growth counter resets
to zero on any growing scroll and increments otherwise; the loop exits with
"no more content" when the counter reaches 3, with the threshold reason when
the cumulative link count reaches the save threshold, and with the
max-attempts reason when the iteration budget is exhausted.  On the
simulated height sequence `100,200,200,200,350` (one height per scroll
call, threshold not reached) the loop reports no more content exactly at
the seventh call — the third consecutive non-growing call after the growth
to 350 — and the counter trace shows the reset to zero at that growth. -/
theorem scroll_loop_no_growth_spec :
    (∀ (grew : ℕ → Bool) (cnt : ℕ → ℕ) (th fuel sc nl : ℕ),
        runLoop grew cnt th (fuel + 1) sc nl =
          (if grew (sc + 1) then
            (if th ≤ cnt (sc + 1) then (ExitReason.thresholdReached, sc + 1)
             else runLoop grew cnt th fuel (sc + 1) 0)
           else if 3 ≤ nl + 1 then (ExitReason.noMoreContent, sc + 1)
           else if th ≤ cnt (sc + 1) then (ExitReason.thresholdReached, sc + 1)
           else runLoop grew cnt th fuel (sc + 1) (nl + 1))) ∧
    (∀ (grew : ℕ → Bool) (cnt : ℕ → ℕ) (th sc nl : ℕ),
        runLoop grew cnt th 0 sc nl = (ExitReason.maxAttempts, sc)) ∧
    runLoop testGrew (fun _ => 0) 10000 10000 0 0 =
      (ExitReason.noMoreContent, 7) ∧
    runLoopTrace testGrew (fun _ => 0) 10000 10000 0 0 =
      (ExitReason.noMoreContent,
       [(1, 0), (2, 1), (3, 2), (4, 0), (5, 1), (6, 2), (7, 3)]) := by
  refine ⟨?_, ?_, by decide, by decide⟩
  · intro grew cnt th fuel sc nl
    simp only [runLoop]
    by_cases hg : grew (sc + 1) <;> simp [hg]
  · intro grew cnt th sc nl
    rfl

end Spider

namespace Download

/-- C7: after a transient failure on attempt `k` (0-based) the wait is
`2 ^ min(k, 5)` seconds plus the jitter drawn from `[0, 1)`; the base waits
for attempts 0–5 are `1, 2, 4, 8, 16, 32`, the base wait is non-decreasing
in the attempt number and is capped at 32, and the full wait lies in
`[base, base + 1)`. -/
theorem retry_backoff_spec :
    (baseWait 0 = 1 ∧ baseWait 1 = 2 ∧ baseWait 2 = 4 ∧ baseWait 3 = 8 ∧
      baseWait 4 = 16 ∧ baseWait 5 = 32) ∧
    (∀ j k : ℕ, j ≤ k → baseWait j ≤ baseWait k) ∧
    (∀ k : ℕ, 5 ≤ k → baseWait k = 32) ∧
    (∀ (k : ℕ) (jit : ℚ), 0 ≤ jit → jit < 1 →
      baseWait k ≤ retryWait k jit ∧ retryWait k jit < baseWait k + 1) := by
  refine ⟨by norm_num [baseWait], ?_, ?_, ?_⟩
  · intro j k h
    unfold baseWait
    exact pow_le_pow_right₀ one_le_two (min_le_min h le_rfl)
  · intro k h
    unfold baseWait
    rw [min_eq_right h]
    norm_num
  · intro k jit h0 h1
    unfold retryWait
    constructor <;> linarith

/-- Witness for `retry_backoff_spec` at concrete inputs. -/
theorem retry_backoff_spec_witness :
    baseWait 1 ≤ baseWait 3 ∧
      (baseWait 2 ≤ retryWait 2 (1 / 2) ∧ retryWait 2 (1 / 2) < baseWait 2 + 1) :=
  ⟨retry_backoff_spec.2.1 1 3 (by norm_num),
   retry_backoff_spec.2.2.2 2 (1 / 2) (by norm_num) (by norm_num)⟩

/-- C10: a task whose URL is empty or consists only of whitespace returns
immediately: no network download is invoked and both the mapping and the
file system are left unchanged. -/
theorem process_single_url_blank_spec :
    ∀ (dl : String → String → Option String) (s : DMState) (url dir : String),
      pyStrip url = "" →
      processSingleUrl dl s url dir = (s, TaskOutcome.skippedEmpty, false) := by
  intro dl s url dir h
  simp [processSingleUrl, h]

/-- Witness for `process_single_url_blank_spec`: the whitespace-only URL
`"  \t "`. -/
theorem process_single_url_blank_spec_witness :
    processSingleUrl (fun _ _ => none) ⟨[("u", "p")], ["p"]⟩ "  \t " "dest" =
      (⟨[("u", "p")], ["p"]⟩, TaskOutcome.skippedEmpty, false) :=
  process_single_url_blank_spec (fun _ _ => none) ⟨[("u", "p")], ["p"]⟩
    "  \t " "dest" (by decide)

end Download

namespace Download

/-- C4: for a URL already in the mapping cache whose mapped file still
exists, processing copies it into the destination directory (skipping the
copy if the target already exists there), invokes no network download, and
leaves the mapping unchanged; when the mapped file no longer exists the
entry is treated as stale and the URL goes through the download branch
(which records the mapping on success) rather than being reported as an
error. -/
theorem process_single_url_cached_spec :
    (∀ (dl : String → String → Option String) (s : DMState) (url dir src : String),
        pyStrip url ≠ "" →
        s.mapping.lookup (pyStrip url) = some src →
        src ∈ s.files →
        processSingleUrl dl s url dir =
          (⟨s.mapping,
            if pyJoin dir (pathName src) ∈ s.files then s.files
            else s.files ++ [pyJoin dir (pathName src)]⟩,
           TaskOutcome.copied, false)) ∧
    (∀ (dl : String → String → Option String) (s : DMState) (url dir src : String),
        pyStrip url ≠ "" →
        s.mapping.lookup (pyStrip url) = some src →
        src ∉ s.files →
        processSingleUrl dl s url dir = runDownload dl s (pyStrip url) dir) ∧
    (∀ (dl : String → String → Option String) (s : DMState) (u dir p : String),
        dl u dir = some p →
        runDownload dl s u dir =
          (⟨updateMapping s.mapping u p, s.files ++ [p]⟩,
           TaskOutcome.downloaded, true)) ∧
    (∀ (dl : String → String → Option String) (s : DMState) (u dir : String),
        (runDownload dl s u dir).2.2 = true) := by
  refine ⟨?_, ?_, ?_, ?_⟩
  · intro dl s url dir src hne hl hmem
    simp [processSingleUrl, hne, hl, hmem]
  · intro dl s url dir src hne hl hmem
    simp [processSingleUrl, hne, hl, hmem]
  · intro dl s u dir p h
    simp [runDownload, h]
  · intro dl s u dir
    cases h : dl u dir <;> simp [runDownload, h]

/-- Witness for `process_single_url_cached_spec`: a cached hit that copies
`download/cat.jpg` into `dest`, and a stale entry that falls through to the
download branch. -/
theorem process_single_url_cached_spec_witness :
    processSingleUrl (fun _ _ => none)
        ⟨[("u", "download/cat.jpg")], ["download/cat.jpg"]⟩ " u " "dest" =
      (⟨[("u", "download/cat.jpg")],
        if pyJoin "dest" (pathName "download/cat.jpg") ∈ ["download/cat.jpg"]
        then ["download/cat.jpg"]
        else ["download/cat.jpg"] ++ [pyJoin "dest" (pathName "download/cat.jpg")]⟩,
       TaskOutcome.copied, false) ∧
    processSingleUrl (fun _ _ => some "dl/x.jpg") ⟨[("u", "gone.jpg")], []⟩
        "u" "dest" =
      runDownload (fun _ _ => some "dl/x.jpg") ⟨[("u", "gone.jpg")], []⟩
        (pyStrip "u") "dest" :=
  ⟨process_single_url_cached_spec.1 (fun _ _ => none)
      ⟨[("u", "download/cat.jpg")], ["download/cat.jpg"]⟩ " u " "dest"
      "download/cat.jpg" (by decide) (by decide) (by decide),
   process_single_url_cached_spec.2.1 (fun _ _ => some "dl/x.jpg")
      ⟨[("u", "gone.jpg")], []⟩ "u" "dest" "gone.jpg"
      (by decide) (by decide) (by decide)⟩

/-- C9 counterexample: a run of `process_all` whose URL folder is missing
returns before any task is processed and before `_save_mapping`: the
mapping document is never persisted, refuting "persisted exactly once" for
that run. -/
theorem process_all_no_folder_cex :
    (processAll (fun _ _ => none) false [("u", "d")] ⟨⟨[], []⟩, none, 0⟩).persisted
        = none ∧
    ¬ (processAll (fun _ _ => none) false [("u", "d")]
        ⟨⟨[], []⟩, none, 0⟩).saveCount = 1 := by
  exact ⟨rfl, by decide⟩

/-- C9 (amended): when the URL folder exists, `process_all` processes every
collected task and afterwards persists the mapping cache exactly once, as a
whole-document overwrite holding the final in-memory mapping; the
persistence step runs regardless of per-task outcomes — in particular also
when every task fails. -/
theorem process_all_persist_once_spec :
    (∀ (dl : String → String → Option String) (tasks : List (String × String))
        (dm : DMState) (pers : Option (List (String × String))) (sc : ℕ),
        processAll dl true tasks ⟨dm, pers, sc⟩ =
          ⟨tasks.foldl (fun st t => (processSingleUrl dl st t.1 t.2).1) dm,
           some (tasks.foldl (fun st t => (processSingleUrl dl st t.1 t.2).1) dm).mapping,
           sc + 1⟩) ∧
    (∀ (tasks : List (String × String)) (dm : DMState)
        (pers : Option (List (String × String))) (sc : ℕ),
        (processAll (fun _ _ => none) true tasks ⟨dm, pers, sc⟩).saveCount = sc + 1 ∧
        (processAll (fun _ _ => none) true tasks ⟨dm, pers, sc⟩).persisted =
          some (processAll (fun _ _ => none) true tasks ⟨dm, pers, sc⟩).dm.mapping) := by
  exact ⟨fun dl tasks dm pers sc => rfl, fun tasks dm pers sc => ⟨rfl, rfl⟩⟩

end Download

namespace Spider

/-- C8 counterexample: the unconditional session-end flush in
`UnsplashScraper.start` does not clear the in-memory link set — after
flushing a nonempty set at session end, the set is still nonempty, so
"every flush … clears the in-memory set" fails on the code. -/
theorem session_end_flush_keeps_set_cex :
    ¬ (sessionEndFlush "dog" ⟨["https://a/1"], 0, []⟩).downloadLinks = [] := by
  decide

/-- C8 (amended): every flush writes the current set's members, one per
line, to a file named by the category label and the new cumulative total
(the running total after adding the current batch), and raises the running
total by the flushed count; the in-memory set is cleared by the caller
after a threshold-triggered flush, while the session-end flush — performed
unconditionally unless the set is empty — leaves the set uncleared; the
threshold flush is triggered automatically when the cumulative link count
reaches the save threshold. -/
theorem link_store_flush_spec :
    (∀ (kw : String) (s : ScraperState),
        saveLinksToFile kw s =
          ⟨s.downloadLinks, s.totalSavedLinks + s.downloadLinks.length,
           s.savedFiles ++
             [(outputFileName kw (s.totalSavedLinks + s.downloadLinks.length),
               s.downloadLinks)]⟩) ∧
    (∀ (kw : String) (s : ScraperState),
        thresholdFlush kw s =
          ⟨[], s.totalSavedLinks + s.downloadLinks.length,
           s.savedFiles ++
             [(outputFileName kw (s.totalSavedLinks + s.downloadLinks.length),
               s.downloadLinks)]⟩) ∧
    (∀ (kw : String) (s : ScraperState),
        s.downloadLinks = [] → sessionEndFlush kw s = s) ∧
    (∀ (kw : String) (s : ScraperState),
        s.downloadLinks ≠ [] → sessionEndFlush kw s = saveLinksToFile kw s) ∧
    (∀ (grew : ℕ → Bool) (cnt : ℕ → ℕ) (th fuel sc nl : ℕ),
        ¬ 3 ≤ (if grew (sc + 1) then 0 else nl + 1) →
        th ≤ cnt (sc + 1) →
        runLoop grew cnt th (fuel + 1) sc nl =
          (ExitReason.thresholdReached, sc + 1)) := by
  refine ⟨fun kw s => rfl, fun kw s => rfl, ?_, ?_, ?_⟩
  · intro kw s h
    simp [sessionEndFlush, h]
  · intro kw s h
    simp [sessionEndFlush, h]
  · intro grew cnt th fuel sc nl h3 hth
    simp only [runLoop]
    rw [if_neg h3, if_pos hth]

/-- Witness for `link_store_flush_spec`: the skipped empty session-end
flush, a nonempty session-end flush, and a threshold-triggered exit. -/
theorem link_store_flush_spec_witness :
    sessionEndFlush "dog" ⟨[], 7, []⟩ = ⟨[], 7, []⟩ ∧
    sessionEndFlush "dog" ⟨["x"], 7, []⟩ = saveLinksToFile "dog" ⟨["x"], 7, []⟩ ∧
    runLoop (fun _ => false) (fun _ => 5) 5 (3 + 1) 0 0 =
      (ExitReason.thresholdReached, 1) :=
  ⟨link_store_flush_spec.2.2.1 "dog" ⟨[], 7, []⟩ rfl,
   link_store_flush_spec.2.2.2.1 "dog" ⟨["x"], 7, []⟩ (by decide),
   link_store_flush_spec.2.2.2.2 (fun _ => false) (fun _ => 5) 5 3 0 0
     (by decide) (by decide)⟩

end Spider

namespace Download

/-- Helper: when no attempt in range completes, the retry loop returns an
absent result, and — provided at least one attempt runs and either the temp
path is already known or no temp file exists — no temp file remains. -/
theorem dwrAux_all_fail (hd : ℕ → Bool) (srv : Option ℕ → ℕ)
    (net : ℕ → NetOutcome) :
    ∀ (f k : ℕ) (pk : Bool) (temp : Option ℕ),
      (∀ j, k ≤ j → j < k + f → isComplete (net j) = false) →
      (dwrAux hd srv net f k pk temp).result = none ∧
      (1 ≤ f → (pk = true ∨ temp = none) →
        (dwrAux hd srv net f k pk temp).temp = none) := by
  intro f
  induction f with
  | zero =>
    intro k pk temp _
    exact ⟨rfl, fun h _ => absurd h (by omega)⟩
  | succ f ih =>
    intro k pk temp hfail
    have hk : isComplete (net k) = false := hfail k le_rfl (by omega)
    by_cases hpk : (pk || hd k) = true
    · rcases hnet : net k with _ | m | _
      · by_cases hf : f = 0
        · subst hf
          constructor
          · simp [dwrAux, hpk, hnet]
          · intro _ _
            simp [dwrAux, hpk, hnet]
        · have hrec := ih (k + 1) true temp
            (fun j h1 h2 => hfail j (by omega) (by omega))
          constructor
          · simp only [dwrAux, hpk, if_true, hnet, if_neg hf]
            exact hrec.1
          · intro _ _
            simp only [dwrAux, hpk, if_true, hnet, if_neg hf]
            exact hrec.2 (by omega) (Or.inl rfl)
      · by_cases hf : f = 0
        · subst hf
          constructor
          · simp [dwrAux, hpk, hnet]
          · intro _ _
            simp [dwrAux, hpk, hnet]
        · have hrec := ih (k + 1) true (some (temp.getD 0 + min m (srv temp)))
            (fun j h1 h2 => hfail j (by omega) (by omega))
          constructor
          · simp only [dwrAux, hpk, if_true, hnet, if_neg hf]
            exact hrec.1
          · intro _ _
            simp only [dwrAux, hpk, if_true, hnet, if_neg hf]
            exact hrec.2 (by omega) (Or.inl rfl)
      · rw [hnet] at hk
        simp [isComplete] at hk
    · have hpkf : pk = false := by
        rcases pk with _ | _
        · rfl
        · simp at hpk
      have hhd : hd k = false := by
        rcases h : hd k with _ | _
        · rfl
        · rw [hpkf, h] at hpk
          simp at hpk
      by_cases hf : f = 0
      · subst hf
        constructor
        · simp [dwrAux, hpkf, hhd]
        · intro _ htemp
          have htn : temp = none := by
            rcases htemp with h | h
            · rw [hpkf] at h
              exact absurd h (by simp)
            · exact h
          simp [dwrAux, hpkf, hhd, htn]
      · have hstep : dwrAux hd srv net (f + 1) k pk temp =
            dwrAux hd srv net f (k + 1) false temp := by
          simp [dwrAux, hpkf, hhd, hf]
        have hrec := ih (k + 1) false temp
          (fun j h1 h2 => hfail j (by omega) (by omega))
        rw [hstep]
        constructor
        · exact hrec.1
        · intro _ htemp
          have htn : temp = none := by
            rcases htemp with h | h
            · rw [hpkf] at h
              exact absurd h (by simp)
            · exact h
          exact hrec.2 (by omega) (Or.inr htn)

/-- C3: when every one of the `maxRetries` attempts of
`download_with_retry` fails with a `RequestException`, the call reports the
failure as an absent result (`None`) — never a path — and for a fresh call
(no pre-existing temp file) any partial temp content written during the
attempts is deleted.  The model is a total function, reflecting that the
exception is caught and does not escape. -/
theorem download_exhausted_spec :
    (∀ (hd : ℕ → Bool) (srv : Option ℕ → ℕ) (net : ℕ → NetOutcome)
        (maxRetries : ℕ),
        (∀ j, j < maxRetries → isComplete (net j) = false) →
        (dwr hd srv net maxRetries none).result = none ∧
        (dwr hd srv net maxRetries none).temp = none) ∧
    (∀ (hd : ℕ → Bool) (srv : Option ℕ → ℕ) (net : ℕ → NetOutcome)
        (maxRetries : ℕ) (initTemp : Option ℕ),
        (∀ j, j < maxRetries → isComplete (net j) = false) →
        (dwr hd srv net maxRetries initTemp).result = none) := by
  constructor
  · intro hd srv net maxRetries hfail
    have h := dwrAux_all_fail hd srv net maxRetries 0 false none
      (fun j h1 h2 => hfail j (by omega))
    refine ⟨h.1, ?_⟩
    rcases maxRetries with _ | n
    · rfl
    · exact h.2 (by omega) (Or.inr rfl)
  · intro hd srv net maxRetries initTemp hfail
    exact (dwrAux_all_fail hd srv net maxRetries 0 false initTemp
      (fun j h1 h2 => hfail j (by omega))).1

/-- Witness for `download_exhausted_spec`: ten attempts, HEAD succeeding,
every GET interrupted after 5 bytes. -/
theorem download_exhausted_spec_witness :
    (dwr (fun _ => true) (fun _ => 100) (fun _ => NetOutcome.cutAfter 5)
        10 none).result = none ∧
    (dwr (fun _ => true) (fun _ => 100) (fun _ => NetOutcome.cutAfter 5)
        10 none).temp = none :=
  download_exhausted_spec.1 (fun _ => true) (fun _ => 100)
    (fun _ => NetOutcome.cutAfter 5) 10 (fun _ _ => rfl)

end Download

namespace Download

/-- C6: whenever an attempt runs with a temp file of size `S` present, the
GET carries the byte-range continuation header `bytes=S-`; an interrupted
attempt appends the received bytes to the temp file without truncating the
prior `S` bytes; and — for a server that honours ranges, sending exactly
the advertised `C` bytes on a full request and the remaining `C - S` bytes
for range `bytes=S-` — any successful call promotes a final file of exactly
`C` bytes, with no duplicated or missing byte ranges. -/
theorem download_resume_spec :
    (∀ (hd : ℕ → Bool) (srv : Option ℕ → ℕ) (net : ℕ → NetOutcome)
        (f k : ℕ) (pk : Bool) (S : ℕ),
        (pk || hd k) = true →
        ((dwrAux hd srv net (f + 1) k pk (some S)).ranges).head? =
          some (some S)) ∧
    (∀ (hd : ℕ → Bool) (srv : Option ℕ → ℕ) (net : ℕ → NetOutcome)
        (f k : ℕ) (pk : Bool) (S m : ℕ),
        (pk || hd k) = true →
        net k = NetOutcome.cutAfter m →
        f ≠ 0 →
        dwrAux hd srv net (f + 1) k pk (some S) =
          ⟨(dwrAux hd srv net f (k + 1) true
              (some (S + min m (srv (some S))))).result,
           (dwrAux hd srv net f (k + 1) true
              (some (S + min m (srv (some S))))).temp,
           some S :: (dwrAux hd srv net f (k + 1) true
              (some (S + min m (srv (some S))))).ranges⟩) ∧
    (∀ (hd : ℕ → Bool) (srv : Option ℕ → ℕ) (net : ℕ → NetOutcome) (C : ℕ),
        srv none = C →
        (∀ S, S ≤ C → srv (some S) + S = C) →
        ∀ (f k : ℕ) (pk : Bool) (temp : Option ℕ),
          temp.getD 0 ≤ C →
          ∀ n, (dwrAux hd srv net f k pk temp).result = some n → n = C) := by
  refine ⟨?_, ?_, ?_⟩
  · intro hd srv net f k pk S hpk
    rcases hnet : net k with _ | m | _ <;> by_cases hf : f = 0 <;>
      simp [dwrAux, hpk, hnet, hf]
  · intro hd srv net f k pk S m hpk hnet hf
    simp [dwrAux, hpk, hnet, hf]
  · intro hd srv net C h0 h1 f
    induction f with
    | zero =>
      intro k pk temp ht n hn
      simp [dwrAux] at hn
    | succ f ih =>
      intro k pk temp ht n hn
      by_cases hpk : (pk || hd k) = true
      · rcases hnet : net k with _ | m | _
        · by_cases hf : f = 0
          · subst hf
            simp [dwrAux, hpk, hnet] at hn
          · simp only [dwrAux, hpk, if_true, hnet, if_neg hf] at hn
            exact ih (k + 1) true temp ht n hn
        · by_cases hf : f = 0
          · subst hf
            simp [dwrAux, hpk, hnet] at hn
          · simp only [dwrAux, hpk, if_true, hnet, if_neg hf] at hn
            refine ih (k + 1) true (some (temp.getD 0 + min m (srv temp)))
              ?_ n hn
            rcases temp with _ | S
            · have hm : min m (srv none) ≤ C := by
                rw [h0]
                exact min_le_right m C
              simpa using hm
            · have hS : S ≤ C := by simpa using ht
              have hsm : min m (srv (some S)) ≤ srv (some S) :=
                min_le_right m (srv (some S))
              have := h1 S hS
              simp only [Option.getD_some]
              omega
        · simp [dwrAux, hpk, hnet] at hn
          rcases temp with _ | S
          · simp at hn
            rw [h0] at hn
            omega
          · simp at hn
            have hS : S ≤ C := by simpa using ht
            have := h1 S hS
            omega
      · have hpkf : pk = false := by
          rcases pk with _ | _
          · rfl
          · simp at hpk
        have hhd : hd k = false := by
          rcases h : hd k with _ | _
          · rfl
          · rw [hpkf, h] at hpk
            simp at hpk
        by_cases hf : f = 0
        · subst hf
          simp [dwrAux, hpkf, hhd] at hn
        · have hstep : dwrAux hd srv net (f + 1) k pk temp =
              dwrAux hd srv net f (k + 1) false temp := by
            simp [dwrAux, hpkf, hhd, hf]
          rw [hstep] at hn
          exact ih (k + 1) false temp ht n hn

/-- Witness for `download_resume_spec`: a server advertising 100 bytes, a
first attempt interrupted after 30 bytes, and a second ranged attempt
completing the remaining 70 bytes. -/
theorem download_resume_spec_witness :
    (dwrAux (fun _ => true)
        (fun r => match r with | none => 100 | some S => 100 - S)
        (fun j => if j = 0 then NetOutcome.cutAfter 30 else NetOutcome.complete)
        10 0 false (some 7)).ranges.head? = some (some 7) ∧
    (100 : ℕ) = 100 ∧
    (dwr (fun _ => true)
        (fun r => match r with | none => 100 | some S => 100 - S)
        (fun j => if j = 0 then NetOutcome.cutAfter 30 else NetOutcome.complete)
        10 none).result = some 100 :=
  ⟨download_resume_spec.1 (fun _ => true)
      (fun r => match r with | none => 100 | some S => 100 - S)
      (fun j => if j = 0 then NetOutcome.cutAfter 30 else NetOutcome.complete)
      9 0 false 7 rfl,
   download_resume_spec.2.2 (fun _ => true)
      (fun r => match r with | none => 100 | some S => 100 - S)
      (fun j => if j = 0 then NetOutcome.cutAfter 30 else NetOutcome.complete)
      100 rfl (fun S hS => by show 100 - S + S = 100; omega)
      10 0 false none (by simp) 100 (by decide),
   by decide⟩

end Download

namespace Download

/-- C5: filename resolution follows the priority order (1) percent-decoded
extended `filename*=` directive, (2) quoted/unquoted basic `filename=`
directive, (3) percent-decoded last URL path segment when it contains a
dot, (4) content-type lookup with an 8-hex-character URL-hash stem,
(5) generic `.tmp` fallback for unrecognised content types; in particular
`filename="cat.jpg"` with URL path `/photo-123` resolves to `cat.jpg`, and
no directive with URL `/download?id=5` and content-type `image/png`
resolves to the 8-hex-character hash of the URL followed by `.png`. -/
theorem extract_filename_priority_spec :
    (∀ (md5hex8 : String → String) (h : RespHeaders) (url fn : String),
        h.contentDisposition ≠ "" →
        cdStarName h.contentDisposition = some fn →
        extractFilenameFromResponse md5hex8 h url = fn) ∧
    (∀ (md5hex8 : String → String) (h : RespHeaders) (url fn : String),
        h.contentDisposition ≠ "" →
        cdStarName h.contentDisposition = none →
        cdBasicName h.contentDisposition = some fn →
        extractFilenameFromResponse md5hex8 h url = fn) ∧
    (∀ (md5hex8 : String → String) (h : RespHeaders) (url : String),
        (h.contentDisposition = "" ∨
          (cdStarName h.contentDisposition = none ∧
            cdBasicName h.contentDisposition = none)) →
        pathName (urlPath url) ≠ "" →
        '.' ∈ (pathName (urlPath url)).toList →
        extractFilenameFromResponse md5hex8 h url =
          pyUnquote (pathName (urlPath url))) ∧
    (∀ (md5hex8 : String → String) (h : RespHeaders) (url : String),
        (h.contentDisposition = "" ∨
          (cdStarName h.contentDisposition = none ∧
            cdBasicName h.contentDisposition = none)) →
        ¬ (pathName (urlPath url) ≠ "" ∧
            '.' ∈ (pathName (urlPath url)).toList) →
        extractFilenameFromResponse md5hex8 h url =
          md5hex8 url ++
            extForContentType
              (String.mk (h.contentType.toList.takeWhile (fun c => c != ';')))) ∧
    (∀ ct : String, ct ≠ "image/jpeg" → ct ≠ "image/png" → ct ≠ "image/gif" →
        ct ≠ "image/webp" → ct ≠ "image/svg+xml" →
        ct ≠ "application/octet-stream" → extForContentType ct = ".tmp") ∧
    (∀ md5hex8 : String → String,
        extractFilenameFromResponse md5hex8
          ⟨"filename=\"cat.jpg\"", "image/jpeg"⟩
          "https://unsplash.com/photo-123" = "cat.jpg") ∧
    (∀ md5hex8 : String → String,
        (∀ s, (md5hex8 s).length = 8 ∧
          ∀ c ∈ (md5hex8 s).toList, isHexDigitChar c = true) →
        extractFilenameFromResponse md5hex8 ⟨"", "image/png"⟩
            "https://example.com/download?id=5" =
          md5hex8 "https://example.com/download?id=5" ++ ".png" ∧
        (md5hex8 "https://example.com/download?id=5").length = 8 ∧
        ∀ c ∈ (md5hex8 "https://example.com/download?id=5").toList,
          isHexDigitChar c = true) := by
  refine ⟨?_, ?_, ?_, ?_, ?_, ?_, ?_⟩
  · intro md5hex8 h url fn hne hstar
    simp [extractFilenameFromResponse, hne, hstar]
  · intro md5hex8 h url fn hne hstar hbasic
    simp [extractFilenameFromResponse, hne, hstar, hbasic]
  · intro md5hex8 h url hcd hfn hdot
    rcases hcd with hcd | ⟨h1, h2⟩
    · simp [extractFilenameFromResponse, hcd, hfn, hdot]
      try exact fun hx => absurd hdot hx
    · by_cases hcd : h.contentDisposition = "" <;>
        simp [extractFilenameFromResponse, hcd, h1, h2, hfn, hdot] <;>
        try exact fun hx => absurd hdot hx
  · intro md5hex8 h url hcd hpath
    rcases hcd with hcd | ⟨h1, h2⟩
    · simp only [extractFilenameFromResponse, hcd, if_pos rfl]
      simp
      intro hA hB
      exact absurd ⟨hA, hB⟩ hpath
    · by_cases hcd : h.contentDisposition = ""
      · simp only [extractFilenameFromResponse, hcd, if_pos rfl]
        simp
        intro hA hB
        exact absurd ⟨hA, hB⟩ hpath
      · simp [extractFilenameFromResponse, hcd, h1, h2]
        intro hA hB
        exact absurd ⟨hA, hB⟩ hpath
  · intro ct n1 n2 n3 n4 n5 n6
    simp [extForContentType, n1, n2, n3, n4, n5, n6]
  · intro md5hex8
    rfl
  · intro md5hex8 hp
    refine ⟨?_, (hp _).1, (hp _).2⟩
    have h4 : extractFilenameFromResponse md5hex8 ⟨"", "image/png"⟩
        "https://example.com/download?id=5" =
        md5hex8 "https://example.com/download?id=5" ++
          extForContentType (String.mk
            (("image/png" : String).toList.takeWhile (fun c => c != ';'))) := by
      simp [extractFilenameFromResponse]
      intro hA hB
      exact absurd hB (by decide)
    rw [h4]
    congr 1

/-- Witness for `extract_filename_priority_spec`, instantiating the hash
primitive with the constant 8-hex-character string `0a1b2c3d`. -/
theorem extract_filename_priority_spec_witness :
    extractFilenameFromResponse (fun _ => "0a1b2c3d")
        ⟨"filename=\"cat.jpg\"", "image/jpeg"⟩
        "https://unsplash.com/photo-123" = "cat.jpg" ∧
    extractFilenameFromResponse (fun _ => "0a1b2c3d") ⟨"", "image/png"⟩
        "https://example.com/download?id=5" = "0a1b2c3d" ++ ".png" ∧
    ("0a1b2c3d" : String).length = 8 := by
  have h7 := extract_filename_priority_spec.2.2.2.2.2.2 (fun _ => "0a1b2c3d")
    (fun s =>
      show ("0a1b2c3d" : String).length = 8 ∧
          ∀ c ∈ ("0a1b2c3d" : String).toList, isHexDigitChar c = true from
        by decide)
  exact ⟨extract_filename_priority_spec.2.2.2.2.2.1 (fun _ => "0a1b2c3d"),
    h7.1, h7.2.1⟩

end Download

namespace RateLimiter

/-- Helper: `dropWhile` splits a list into a dropped prefix, all of whose
elements satisfy the predicate, and the remaining suffix. -/
theorem dropWhile_decomp (p : ℚ → Bool) (l : List ℚ) :
    ∃ Q, l = Q ++ l.dropWhile p ∧ ∀ q ∈ Q, p q = true := by
  induction l with
  | nil => exact ⟨[], rfl, by simp⟩
  | cons x xs ih =>
    by_cases hx : p x = true
    · obtain ⟨Q, hQ, hall⟩ := ih
      refine ⟨x :: Q, ?_, ?_⟩
      · rw [List.dropWhile_cons_of_pos hx, List.cons_append, ← hQ]
      · intro q hq
        rcases List.mem_cons.mp hq with rfl | hq
        · exact hx
        · exact hall q hq
    · refine ⟨[], ?_, by simp⟩
      rw [List.dropWhile_cons_of_neg hx, List.nil_append]

/-- Helper: the head of a nonempty `dropWhile` result fails the
predicate. -/
theorem headI_dropWhile_not (p : ℚ → Bool) (l : List ℚ)
    (h : l.dropWhile p ≠ []) : p ((l.dropWhile p).headI) = false := by
  have h2 := List.head?_dropWhile_not p l
  rcases hD : l.dropWhile p with _ | ⟨x, t⟩
  · exact absurd hD h
  · rw [hD] at h2
    simpa using h2

/-- Helper: in-bounds `getD` values are members. -/
theorem getD_mem_of_lt (A : List ℚ) (i : ℕ) (h : i < A.length) :
    A.getD i 0 ∈ A := by
  rw [List.getD_eq_getElem _ _ h]
  exact List.getElem_mem h

/-- Helper: the appended element sits at index `A.length`. -/
theorem getD_append_len (A : List ℚ) (a : ℚ) :
    (A ++ [a]).getD A.length 0 = a := by
  rw [List.getD_append_right _ _ _ _ le_rfl]
  simp

/-- Helper: appending an upper bound preserves monotonicity. -/
theorem monoList_append (A : List ℚ) (a : ℚ) (hm : MonoList A)
    (hub : ∀ x ∈ A, x ≤ a) : MonoList (A ++ [a]) := by
  intro i j hij hj
  rw [List.length_append] at hj
  simp only [List.length_singleton] at hj
  by_cases hjA : j < A.length
  · rw [List.getD_append _ _ _ _ (lt_of_le_of_lt hij hjA),
      List.getD_append _ _ _ _ hjA]
    exact hm i j hij hjA
  · have hj' : j = A.length := by omega
    subst hj'
    rw [getD_append_len]
    by_cases hiA : i < A.length
    · rw [List.getD_append _ _ _ _ hiA]
      exact hub _ (getD_mem_of_lt A i hiA)
    · have hi' : i = A.length := by omega
      subst hi'
      rw [getD_append_len]

/-- Helper: monotonicity of a tail. -/
theorem monoList_tail (x : ℚ) (A : List ℚ) (h : MonoList (x :: A)) :
    MonoList A := by
  intro i j hij hj
  have := h (i + 1) (j + 1) (by omega) (by simpa using Nat.succ_lt_succ hj)
  simpa using this

/-- Helper: the gap property of a tail. -/
theorem gapOK_tail (maxR : ℕ) (tw : ℚ) (x : ℚ) (A : List ℚ)
    (h : GapOK maxR tw (x :: A)) : GapOK maxR tw A := by
  intro i hi
  have h2 := h (i + 1) (by simp only [List.length_cons]; omega)
  rw [show i + 1 + maxR = i + maxR + 1 from by omega] at h2
  simpa [List.getD_cons_succ] using h2

/-- Helper: a member of `A.drop n` is a `getD` value at an index `≥ n`. -/
theorem mem_drop_getD (A : List ℚ) (n : ℕ) (a : ℚ) (h : a ∈ A.drop n) :
    ∃ j, n ≤ j ∧ j < A.length ∧ A.getD j 0 = a := by
  obtain ⟨i, hi, hia⟩ := List.mem_iff_getElem.mp h
  have hlen : n + i < A.length := by
    rw [List.length_drop] at hi
    omega
  refine ⟨n + i, by omega, hlen, ?_⟩
  rw [List.getD_eq_getElem _ _ hlen, ← hia]
  exact List.getElem_drop' A hlen

/-- Helper: a sorted list in which admissions `maxR` apart always span more
than `tw` has at most `maxR` elements inside any window `(t, t + tw]`. -/
theorem window_count_of_gap (maxR : ℕ) (tw : ℚ) :
    ∀ A : List ℚ, MonoList A → GapOK maxR tw A → ∀ t : ℚ,
      (A.filter (fun a => decide (t < a) && decide (a ≤ t + tw))).length
        ≤ maxR := by
  intro A
  induction A with
  | nil =>
    intro _ _ t
    simp
  | cons x A ih =>
    intro hm hg t
    by_cases hlen : (x :: A).length ≤ maxR
    · exact le_trans (List.length_filter_le _ _) hlen
    · by_cases hx : (decide (t < x) && decide (x ≤ t + tw)) = true
      · have hxt : t < x := by
          have := (Bool.and_eq_true _ _).mp hx
          exact of_decide_eq_true this.1
        have hgap0 : (x :: A).getD 0 0 + tw < (x :: A).getD maxR 0 := by
          have := hg 0 (by simp only [List.length_cons] at hlen ⊢; omega)
          simpa using this
        have hdrop : ∀ a ∈ (x :: A).drop maxR,
            ¬ ((decide (t < a) && decide (a ≤ t + tw)) = true) := by
          intro a ha hmem
          obtain ⟨j, hj1, hj2, hj3⟩ := mem_drop_getD (x :: A) maxR a ha
          have h1 : (x :: A).getD maxR 0 ≤ (x :: A).getD j 0 :=
            hm maxR j hj1 hj2
          have h2 : t + tw < a := by
            rw [List.getD_cons_zero] at hgap0
            rw [← hj3]
            calc t + tw < x + tw := by linarith
              _ < (x :: A).getD maxR 0 := hgap0
              _ ≤ (x :: A).getD j 0 := h1
          have h3 : a ≤ t + tw :=
            of_decide_eq_true ((Bool.and_eq_true _ _).mp hmem).2
          linarith
        have hsplit := List.take_append_drop maxR (x :: A)
        calc ((x :: A).filter
              (fun a => decide (t < a) && decide (a ≤ t + tw))).length
            = (((x :: A).take maxR ++ (x :: A).drop maxR).filter
                (fun a => decide (t < a) && decide (a ≤ t + tw))).length := by
              rw [hsplit]
          _ = (((x :: A).take maxR).filter
                (fun a => decide (t < a) && decide (a ≤ t + tw))).length +
              (((x :: A).drop maxR).filter
                (fun a => decide (t < a) && decide (a ≤ t + tw))).length := by
              rw [List.filter_append, List.length_append]
          _ = (((x :: A).take maxR).filter
                (fun a => decide (t < a) && decide (a ≤ t + tw))).length := by
              rw [List.filter_eq_nil_iff.mpr hdrop]
              simp
          _ ≤ ((x :: A).take maxR).length := List.length_filter_le _ _
          _ ≤ maxR := by
              rw [List.length_take]
              omega
      · simp only [List.filter_cons]
        rw [if_neg hx]
        exact ih (monoList_tail x A hm) (gapOK_tail maxR tw x A hg) t

end RateLimiter

namespace RateLimiter

/-- Helper: characterisation of a blocked `acquire` call — when the pruned
deque has reached `max_requests`, the computed sleep time is strictly
positive (the deque head survived pruning, so it is at most `time_window`
old, and the margin is positive) and the call suspends for it before
admitting. -/
theorem acquireStep_blocked (maxR : ℕ) (tw : ℚ) (D : List ℚ) (now : ℚ)
    (hmaxR : 1 ≤ maxR)
    (hbr : maxR ≤ (D.dropWhile (fun t => decide (t < now - tw))).length) :
    0 < tw - (now - (D.dropWhile (fun t => decide (t < now - tw))).headI) +
        margin ∧
    acquireStep maxR tw D now =
      (D.dropWhile (fun t => decide (t < now - tw)) ++
        [now + (tw - (now -
          (D.dropWhile (fun t => decide (t < now - tw))).headI) + margin)],
       now + (tw - (now -
          (D.dropWhile (fun t => decide (t < now - tw))).headI) + margin)) := by
  have hpne : D.dropWhile (fun t => decide (t < now - tw)) ≠ [] := by
    intro hnil
    rw [hnil] at hbr
    simp at hbr
    omega
  have hhead := headI_dropWhile_not (fun t => decide (t < now - tw)) D hpne
  have hge : ¬ ((D.dropWhile (fun t => decide (t < now - tw))).headI <
      now - tw) := of_decide_eq_false hhead
  have hpos : 0 < tw - (now -
      (D.dropWhile (fun t => decide (t < now - tw))).headI) + margin := by
    have hmarg : (0 : ℚ) < margin := by norm_num [margin]
    push_neg at hge
    linarith
  refine ⟨hpos, ?_⟩
  simp only [acquireStep]
  rw [if_pos hbr, if_pos hpos]

/-- Helper: characterisation of an immediate `acquire` call — when the
pruned deque is below `max_requests` the caller is admitted at once and the
call time is recorded. -/
theorem acquireStep_immediate (maxR : ℕ) (tw : ℚ) (D : List ℚ) (now : ℚ)
    (hbr : ¬ maxR ≤ (D.dropWhile (fun t => decide (t < now - tw))).length) :
    acquireStep maxR tw D now =
      (D.dropWhile (fun t => decide (t < now - tw)) ++ [now], now) := by
  simp only [acquireStep]
  rw [if_neg hbr]

/-- Helper: the head of an append with a nonempty left part. -/
theorem headI_append_of_ne_nil (l l' : List ℚ) (h : l ≠ []) :
    (l ++ l').headI = l.headI := by
  rcases l with _ | ⟨x, t⟩
  · exact absurd rfl h
  · rfl

/-- Helper: `getD 0` of a nonempty list is its head. -/
theorem getD_zero_eq_headI (l : List ℚ) (h : l ≠ []) :
    l.getD 0 0 = l.headI := by
  rcases l with _ | ⟨x, t⟩
  · exact absurd rfl h
  · rfl

/-- Helper: the invariant is preserved by one `acquire` call issued at or
after the previous admission. -/
theorem inv_step (maxR : ℕ) (tw : ℚ) (A D : List ℚ) (lb now : ℚ)
    (D' : List ℚ) (a : ℚ) (hmaxR : 1 ≤ maxR) (hinv : Inv maxR tw A D lb)
    (hnow : lb ≤ now) (hstep : acquireStep maxR tw D now = (D', a)) :
    Inv maxR tw (A ++ [a]) D' a := by
  obtain ⟨P, hA, hP⟩ := hinv.parts
  obtain ⟨Q, hD, hQ⟩ := dropWhile_decomp (fun t => decide (t < now - tw)) D
  have hAsplit : A =
      (P ++ Q) ++ D.dropWhile (fun t => decide (t < now - tw)) := by
    rw [List.append_assoc, ← hD, hA]
  have hPQ : ∀ x ∈ P ++ Q, x + tw < now := by
    intro x hx
    rcases List.mem_append.mp hx with hx | hx
    · exact lt_of_lt_of_le (hP x hx) hnow
    · have hx' : x < now - tw := of_decide_eq_true (hQ x hx)
      linarith
  have hplen : (D.dropWhile (fun t => decide (t < now - tw))).length ≤ maxR := by
    by_cases hDlen : D.length = maxR + 1
    · have hfull := hinv.dfull hDlen
      rcases hDcase : D with _ | ⟨d, tD⟩
      · simp
      · have hdhead : (d :: tD).headI = d := rfl
        rw [hDcase, hdhead] at hfull
        have hd : d < now - tw := by linarith
        have hpr : (d :: tD).dropWhile (fun t => decide (t < now - tw)) =
            tD.dropWhile (fun t => decide (t < now - tw)) :=
          List.dropWhile_cons_of_pos (decide_eq_true hd)
        rw [hpr]
        have hsub : List.Sublist
            (tD.dropWhile (fun t => decide (t < now - tw))) tD :=
          List.dropWhile_sublist _
        have hlen := hsub.length_le
        rw [hDcase] at hDlen
        simp only [List.length_cons] at hDlen
        omega
    · have h1 : D.length ≤ maxR := by
        have := hinv.dlen
        omega
      have hsub : List.Sublist
          (D.dropWhile (fun t => decide (t < now - tw))) D :=
        List.dropWhile_sublist _
      exact le_trans hsub.length_le h1
  by_cases hbr : maxR ≤ (D.dropWhile (fun t => decide (t < now - tw))).length
  · -- blocked call: the deque is full, the caller sleeps, admission at
    -- oldest + tw + margin
    obtain ⟨hpos, heq⟩ := acquireStep_blocked maxR tw D now hmaxR hbr
    rw [heq, Prod.mk.injEq] at hstep
    obtain ⟨hD1, ha1⟩ := hstep
    subst hD1
    subst ha1
    have hm : (D.dropWhile (fun t => decide (t < now - tw))).length = maxR :=
      le_antisymm hplen hbr
    have hpne : D.dropWhile (fun t => decide (t < now - tw)) ≠ [] := by
      intro hnil
      rw [hnil] at hm
      simp at hm
      omega
    have hnowlt : now < now + (tw - (now -
        (D.dropWhile (fun t => decide (t < now - tw))).headI) + margin) := by
      linarith
    have hmarg : (0 : ℚ) < margin := by norm_num [margin]
    refine ⟨?_, ?_, ?_, ?_, ?_, ?_⟩
    · exact monoList_append A _ hinv.mono
        (fun x hx => le_trans (hinv.ub x hx) (le_trans hnow (le_of_lt hnowlt)))
    · refine ⟨P ++ Q, ?_, ?_⟩
      · rw [hAsplit, List.append_assoc]
      · intro x hx
        exact lt_of_lt_of_le (hPQ x hx) (le_of_lt hnowlt)
    · intro x hx
      rcases List.mem_append.mp hx with hx | hx
      · exact le_trans (hinv.ub x hx) (le_trans hnow (le_of_lt hnowlt))
      · rw [List.mem_singleton.mp hx]
    · rw [List.length_append, hm]
      simp
    · intro _
      rw [headI_append_of_ne_nil _ _ hpne]
      linarith
    · intro i hi
      rw [List.length_append, List.length_singleton] at hi
      by_cases hlt : i + maxR < A.length
      · rw [List.getD_append _ _ _ _ (by omega),
          List.getD_append _ _ _ _ hlt]
        exact hinv.gap i hlt
      · have hEq : i + maxR = A.length := by omega
        have e1 : (A ++ [now + (tw - (now -
            (D.dropWhile (fun t => decide (t < now - tw))).headI) +
            margin)]).getD (i + maxR) 0 =
            now + (tw - (now -
              (D.dropWhile (fun t => decide (t < now - tw))).headI) +
              margin) := by
          rw [hEq, getD_append_len]
        have hiA : i < A.length := by omega
        have e2 : (A ++ [now + (tw - (now -
            (D.dropWhile (fun t => decide (t < now - tw))).headI) +
            margin)]).getD i 0 = A.getD i 0 :=
          List.getD_append _ _ _ _ hiA
        rw [e1, e2]
        have hPQlen : (P ++ Q).length = i := by
          have hAl : A.length = (P ++ Q).length +
              (D.dropWhile (fun t => decide (t < now - tw))).length := by
            rw [hAsplit, List.length_append]
          omega
        have e3 : A.getD i 0 =
            (D.dropWhile (fun t => decide (t < now - tw))).getD 0 0 := by
          rw [hAsplit, ← hPQlen]
          have h4 := List.getD_append_right (P ++ Q)
            (D.dropWhile (fun t => decide (t < now - tw))) 0
            (P ++ Q).length le_rfl
          simpa using h4
        have e4 : (D.dropWhile (fun t => decide (t < now - tw))).getD 0 0 =
            (D.dropWhile (fun t => decide (t < now - tw))).headI :=
          getD_zero_eq_headI _ hpne
        rw [e3, e4]
        linarith
  · -- immediate admission: deque below the limit, admitted at `now`
    have heq := acquireStep_immediate maxR tw D now hbr
    rw [heq, Prod.mk.injEq] at hstep
    obtain ⟨hD1, ha1⟩ := hstep
    subst hD1
    subst ha1
    have hm : (D.dropWhile (fun t => decide (t < now - tw))).length < maxR := by
      omega
    refine ⟨?_, ?_, ?_, ?_, ?_, ?_⟩
    · exact monoList_append A _ hinv.mono
        (fun x hx => le_trans (hinv.ub x hx) hnow)
    · refine ⟨P ++ Q, ?_, hPQ⟩
      rw [hAsplit, List.append_assoc]
    · intro x hx
      rcases List.mem_append.mp hx with hx | hx
      · exact le_trans (hinv.ub x hx) hnow
      · rw [List.mem_singleton.mp hx]
    · rw [List.length_append, List.length_singleton]
      omega
    · intro hlen
      rw [List.length_append, List.length_singleton] at hlen
      omega
    · intro i hi
      rw [List.length_append, List.length_singleton] at hi
      by_cases hlt : i + maxR < A.length
      · rw [List.getD_append _ _ _ _ (by omega),
          List.getD_append _ _ _ _ hlt]
        exact hinv.gap i hlt
      · have hEq : i + maxR = A.length := by omega
        have e1 : (A ++ [now]).getD (i + maxR) 0 = now := by
          rw [hEq, getD_append_len]
        have hiA : i < A.length := by omega
        have e2 : (A ++ [now]).getD i 0 = A.getD i 0 :=
          List.getD_append _ _ _ _ hiA
        rw [e1, e2]
        have hAl : A.length = (P ++ Q).length +
            (D.dropWhile (fun t => decide (t < now - tw))).length := by
          rw [hAsplit, List.length_append]
        have hiPQ : i < (P ++ Q).length := by omega
        have e3 : A.getD i 0 = (P ++ Q).getD i 0 := by
          rw [hAsplit]
          exact List.getD_append _ _ _ _ hiPQ
        rw [e3]
        exact hPQ _ (getD_mem_of_lt (P ++ Q) i hiPQ)

end RateLimiter

namespace RateLimiter

/-- Helper: the invariant holds for a fresh limiter. -/
theorem inv_init (maxR : ℕ) (tw : ℚ) (lb : ℚ) : Inv maxR tw [] [] lb := by
  refine ⟨?_, ⟨[], rfl, by simp⟩, by simp, by simp, ?_, ?_⟩
  · intro i j _ hj
    simp at hj
  · intro h
    simp at h
  · intro i hi
    simp at hi

/-- Helper: running any valid sequence of calls preserves the invariant on
the accumulated admission history. -/
theorem run_inv (maxR : ℕ) (tw : ℚ) (hmaxR : 1 ≤ maxR) :
    ∀ (nows : List ℚ) (A D : List ℚ) (lb : ℚ),
      Inv maxR tw A D lb →
      validFrom maxR tw D lb nows = true →
      ∃ D' lb', Inv maxR tw (A ++ (runAux maxR tw D nows).2) D' lb' := by
  intro nows
  induction nows with
  | nil =>
    intro A D lb hinv _
    exact ⟨D, lb, by simpa [runAux] using hinv⟩
  | cons now rest ih =>
    intro A D lb hinv hvalid
    simp only [validFrom, Bool.and_eq_true] at hvalid
    obtain ⟨h1, h2⟩ := hvalid
    have h1' : lb ≤ now := of_decide_eq_true h1
    have hinv' := inv_step maxR tw A D lb now (acquireStep maxR tw D now).1
      (acquireStep maxR tw D now).2 hmaxR hinv h1' rfl
    have hrun : (runAux maxR tw D (now :: rest)).2 =
        (acquireStep maxR tw D now).2 ::
          (runAux maxR tw (acquireStep maxR tw D now).1 rest).2 := rfl
    rw [hrun]
    have hassoc : A ++ ((acquireStep maxR tw D now).2 ::
        (runAux maxR tw (acquireStep maxR tw D now).1 rest).2) =
        (A ++ [(acquireStep maxR tw D now).2]) ++
          (runAux maxR tw (acquireStep maxR tw D now).1 rest).2 := by
      simp
    rw [hassoc]
    exact ih (A ++ [(acquireStep maxR tw D now).2])
      (acquireStep maxR tw D now).1 (acquireStep maxR tw D now).2 hinv' h2

/-- C1: per-call behaviour and global sliding-window bound of
`RateLimiter.acquire`.  (1) On a call at time `now`, timestamps older than
`now - time_window` are discarded first; if the remaining count has reached
`max_requests` the caller is suspended for
`sleep = time_window - (now - oldest) + 0.1` — strictly positive — before
the admission is recorded at `now + sleep`; (2) otherwise the caller is
admitted immediately and `now` is recorded.  (3) For every sequence of
sequential calls (each issued no earlier than the previous call returned)
with `max_requests ≥ 1`, at most `max_requests` admissions complete within
any trailing interval `(t, t + time_window]`. -/
theorem rate_limiter_acquire_spec :
    (∀ (maxR : ℕ) (tw : ℚ) (D : List ℚ) (now : ℚ),
        1 ≤ maxR →
        maxR ≤ (D.dropWhile (fun t => decide (t < now - tw))).length →
        0 < tw - (now -
          (D.dropWhile (fun t => decide (t < now - tw))).headI) + margin ∧
        acquireStep maxR tw D now =
          (D.dropWhile (fun t => decide (t < now - tw)) ++
            [now + (tw - (now -
              (D.dropWhile (fun t => decide (t < now - tw))).headI) +
              margin)],
           now + (tw - (now -
              (D.dropWhile (fun t => decide (t < now - tw))).headI) +
              margin))) ∧
    (∀ (maxR : ℕ) (tw : ℚ) (D : List ℚ) (now : ℚ),
        ¬ maxR ≤ (D.dropWhile (fun t => decide (t < now - tw))).length →
        acquireStep maxR tw D now =
          (D.dropWhile (fun t => decide (t < now - tw)) ++ [now], now)) ∧
    (∀ (maxR : ℕ) (tw : ℚ) (lb : ℚ) (nows : List ℚ),
        1 ≤ maxR →
        validFrom maxR tw [] lb nows = true →
        ∀ t : ℚ,
          ((admissions maxR tw nows).filter
            (fun a => decide (t < a) && decide (a ≤ t + tw))).length
            ≤ maxR) := by
  refine ⟨fun maxR tw D now h1 h2 => acquireStep_blocked maxR tw D now h1 h2,
    fun maxR tw D now h => acquireStep_immediate maxR tw D now h, ?_⟩
  intro maxR tw lb nows hmaxR hvalid t
  obtain ⟨D', lb', hinv⟩ :=
    run_inv maxR tw hmaxR nows [] [] lb (inv_init maxR tw lb) hvalid
  have h := window_count_of_gap maxR tw ([] ++ (runAux maxR tw [] nows).2)
    hinv.mono hinv.gap t
  simpa [admissions] using h

/-- Witness for `rate_limiter_acquire_spec` with `max_requests = 1`,
`time_window = 1` and sequential calls at times `0, 0, 2`: the admissions
are `0, 1.1, 2.2` and any unit window holds at most one of them. -/
theorem rate_limiter_acquire_spec_witness :
    (0 < 1 - ((0 : ℚ) -
        ([(0 : ℚ)].dropWhile (fun t => decide (t < 0 - 1))).headI) + margin ∧
      acquireStep 1 1 [(0 : ℚ)] 0 =
        ([(0 : ℚ)].dropWhile (fun t => decide (t < 0 - 1)) ++
          [0 + (1 - ((0 : ℚ) -
            ([(0 : ℚ)].dropWhile (fun t => decide (t < 0 - 1))).headI) +
            margin)],
         0 + (1 - ((0 : ℚ) -
            ([(0 : ℚ)].dropWhile (fun t => decide (t < 0 - 1))).headI) +
            margin))) ∧
    acquireStep 1 1 ([] : List ℚ) 0 =
      (([] : List ℚ).dropWhile (fun t => decide (t < 0 - 1)) ++ [0], 0) ∧
    ((admissions 1 1 [0, 0, 2]).filter
      (fun a => decide ((0 : ℚ) < a) && decide (a ≤ 0 + 1))).length ≤ 1 :=
  ⟨rate_limiter_acquire_spec.1 1 1 [(0 : ℚ)] 0 le_rfl
      (by norm_num [List.dropWhile]),
   rate_limiter_acquire_spec.2.1 1 1 ([] : List ℚ) 0
      (by norm_num [List.dropWhile]),
   rate_limiter_acquire_spec.2.2 1 1 0 [0, 0, 2] le_rfl
      (by norm_num [validFrom, acquireStep, margin, List.dropWhile]) 0⟩

end RateLimiter
